import Mathlib

/-!
Verification of the feed / refresh / vote logic of the namu-and-rocky backend.

The Go source keeps three pieces of mutable state:
  * `feedByKey` : map S3-key → public URL (the FeedCache);
  * `requestSeen` : map client-key → set of URLs already returned to that client;
  * a Postgres `votes` table keyed by client key.

The `/feed` handler (per-client variant, src/backend/main.go lines 102-172):
  parse `limit` (default 5, only positive integers accepted), require `key`,
  snapshot cache values into `allURLs`, return `{"urls": []}` if empty,
  clamp `limit` to the cache size, compute `available` = cached URLs not yet
  seen by the client, reset the seen set when `available` is empty, then draw a
  random permutation of indices into `available`, output the first
  `min limit |available|` elements and mark each as seen.

Randomness (`rand.Perm`) is modelled by passing the permutation `idx`
explicitly; theorems assume `idx` is a permutation of `List.range n`.
-/

namespace NamuRocky

/-- Model of the Go limit parsing: `limit := 5`; if the query parameter is
present and parses to an integer `n > 0` then `limit = n`.  An absent or
non-integer parameter is `none`. -/
def parseLimit : Option Int → Nat
  | some z => if z > 0 then z.toNat else 5
  | none => 5

/-- The pool the handler samples from: the cached URLs the client has not
seen, or — after the exhaustion reset (`len(available) == 0`) — the whole
snapshot `allURLs`. -/
def availAfterReset (allURLs : List String) (seen : Finset String) : List String :=
  let a := allURLs.filter (fun u => u ∉ seen)
  if a.isEmpty then allURLs else a

/-- Result of one `/feed` computation for one client: the response body
(`urls`) and the client's seen set after the call. -/
structure FeedOutput where
  urls : List String
  seen : Finset String
deriving DecidableEq

/-- Core of the per-client `/feed` handler (src/backend/main.go lines
136-168): compute `available`, clear the seen set when it is empty,
sample `count = min limit |available|` URLs along the permutation `idx`,
marking each sampled URL as seen. -/
def feedCore (allURLs : List String) (limit : Nat) (seen0 : Finset String)
    (idx : List Nat) : FeedOutput :=
  let avail0 := allURLs.filter (fun u => u ∉ seen0)
  let seen1 := if avail0.isEmpty then (∅ : Finset String) else seen0
  let available := if avail0.isEmpty then allURLs else avail0
  let count := min limit available.length
  let out := (idx.take count).map (fun i => available.getD i "")
  ⟨out, out.foldl (fun s u => insert u s) seen1⟩

/-- HTTP-level outcome of a `/feed` request. -/
inductive FeedResponse where
  | badRequest
  | ok (urls : List String)
deriving DecidableEq

/-- Update one client's entry in the seen-sets map. -/
def updateSeen (m : String → Finset String) (k : String) (s : Finset String) :
    String → Finset String :=
  fun k2 => if k2 = k then s else m k2

/-- The per-client `/feed` handler (src/backend/main.go lines 102-172):
require a non-empty `key` (else 400), answer `[]` on an empty cache,
clamp the limit to the cache size, then run `feedCore` on the client's
seen set.  Returns the response, the seen-sets map and the cache (the
handler never writes the cache). -/
def feedHandlerFull (cache : List String) (m : String → Finset String)
    (clientKey : String) (limitRaw : Option Int) (idx : List Nat) :
    FeedResponse × (String → Finset String) × List String :=
  if clientKey = "" then (.badRequest, m, cache)
  else if cache.length = 0 then (.ok [], m, cache)
  else
    let limit0 := parseLimit limitRaw
    let limit := if limit0 > cache.length then cache.length else limit0
    let r := feedCore cache limit (m clientKey) idx
    (.ok r.urls, updateSeen m clientKey r.seen, cache)

/-- The stateless `/feed` handler (src/unnamed/part_001 lines 100-128):
clamp the limit to the cache size and return the first `limit` URLs along
the random permutation `idx`; no per-client state. -/
def statelessFeed (urls : List String) (limitRaw : Option Int)
    (idx : List Nat) : List String :=
  let limit0 := parseLimit limitRaw
  let limit := if limit0 > urls.length then urls.length else limit0
  (idx.take limit).map (fun i => urls.getD i "")

/-- Run a sequence of `/feed` calls for one client against a fixed cache;
each call is a pair (limit, permutation).  Returns the list of responses
and the final seen set. -/
def runFeed (allURLs : List String) :
    Finset String → List (Nat × List Nat) → List (List String) × Finset String
  | seen, [] => ([], seen)
  | seen, (limit, idx) :: rest =>
    let r := feedCore allURLs limit seen idx
    let p := runFeed allURLs r.seen rest
    (r.urls :: p.1, p.2)

/-- Each call's `idx` is a genuine random permutation: a permutation of
`List.range n` where `n` is the size of the pool that call samples from. -/
def validRun (allURLs : List String) :
    Finset String → List (Nat × List Nat) → Bool
  | _, [] => true
  | seen, (limit, idx) :: rest =>
    decide (idx.Perm (List.range (availAfterReset allURLs seen).length)) &&
      validRun allURLs (feedCore allURLs limit seen idx).seen rest

/-- No call in the sequence hits the exhaustion reset (its available set is
non-empty when the call starts). -/
def noResetRun (allURLs : List String) :
    Finset String → List (Nat × List Nat) → Bool
  | _, [] => true
  | seen, (limit, idx) :: rest =>
    !(allURLs.filter (fun u => u ∉ seen)).isEmpty &&
      noResetRun allURLs (feedCore allURLs limit seen idx).seen rest

/-- Extract the url list from a response (`[]` for a 400). -/
def respUrls : FeedResponse → List String
  | .badRequest => []
  | .ok urls => urls

/-- FeedCache insertion as done at startup, on `/refresh` and by the
listing loop: a key already present is left untouched (no-op), a new key
is added with url `base ++ "/" ++ key`. -/
def cacheInsert (c : List (String × String)) (k v : String) :
    List (String × String) :=
  if (c.lookup k).isSome then c else c ++ [(k, v)]

/-- The `/refresh` merge loop (src/backend/main.go lines 189-199): walk the
listed object keys, skip empty keys, insert each new key with its public
URL; existing entries are never removed or overwritten. -/
def refreshMerge (base : String) :
    List (String × String) → List String → List (String × String)
  | c, [] => c
  | c, k :: ks =>
    refreshMerge base (if k = "" then c else cacheInsert c k (base ++ "/" ++ k)) ks

/-- The `/refresh` handler: merge the fresh listing into the cache and
report the total cache size after the merge. -/
def refreshHandler (base : String) (c : List (String × String))
    (keys : List String) : List (String × String) × Nat :=
  let c2 := refreshMerge base c keys
  (c2, c2.length)

/-- One row of the `votes` table. -/
structure VoteRow where
  namu_is_tuxedo : Bool
  vote_count : Nat
deriving DecidableEq

/-- The `/vote` upsert (src/backend/main.go, `INSERT INTO votes ... ON
CONFLICT (key) DO UPDATE SET namu_is_tuxedo = $2, vote_count =
votes.vote_count + 1`): on a table keyed by client identifier, insert
`⟨b, 1⟩` when the key is absent, otherwise overwrite the boolean and
increment the count. -/
def voteUpsert : List (String × VoteRow) → String → Bool → List (String × VoteRow)
  | [], k, b => [(k, ⟨b, 1⟩)]
  | (k0, r) :: rest, k, b =>
    if k0 = k then (k0, ⟨b, r.vote_count + 1⟩) :: rest
    else (k0, r) :: voteUpsert rest k b

/-- Run a sequence of successful `/vote` calls (client key, boolean). -/
def runVotes : List (String × VoteRow) → List (String × Bool) → List (String × VoteRow)
  | t, [] => t
  | t, (k, b) :: rest => runVotes (voteUpsert t k b) rest

/-- `vote_count` stored for a client (0 when the client never voted). -/
def voteCountOf (t : List (String × VoteRow)) (k : String) : Nat :=
  match t.lookup k with
  | some r => r.vote_count
  | none => 0

/-! ### Helper lemmas about the sampling core -/

/-- Mapping `getD` over the full index range reproduces the list. -/
theorem map_getD_range (l : List String) (d : String) :
    (List.range l.length).map (fun i => l.getD i d) = l := by
  induction l with
  | nil => rfl
  | cons a t ih =>
    rw [List.length_cons, List.range_succ_eq_map, List.map_cons, List.map_map]
    refine congrArg (a :: ·) ?_
    rw [show ((fun i => (a :: t).getD i d) ∘ Nat.succ) = (fun i => t.getD i d)
      from funext fun i => rfl]
    exact ih

theorem getD_mem {l : List String} {i : ℕ} (h : i < l.length) (d : String) :
    l.getD i d ∈ l := by
  rw [List.getD_eq_getElem l d h]
  exact l.getElem_mem h

/-- Every sampled element comes from the pool. -/
theorem sample_subset {l : List String} {idx : List ℕ} {c : ℕ}
    (hidx : idx.Perm (List.range l.length)) :
    ∀ u ∈ (idx.take c).map (fun i => l.getD i ""), u ∈ l := by
  intro u hu
  obtain ⟨i, hi, rfl⟩ := List.mem_map.mp hu
  have : i ∈ List.range l.length :=
    hidx.mem_iff.mp (List.mem_of_mem_take hi)
  exact getD_mem (List.mem_range.mp this) ""

/-- Sampling along a permutation of the index range of a duplicate-free
pool yields a duplicate-free result. -/
theorem sample_nodup {l : List String} {idx : List ℕ} {c : ℕ}
    (hl : l.Nodup) (hidx : idx.Perm (List.range l.length)) :
    ((idx.take c).map (fun i => l.getD i "")).Nodup := by
  have hnd : (idx.take c).Nodup :=
    ((hidx.nodup_iff.mpr (List.nodup_range _)).sublist (List.take_sublist c idx))
  refine List.Nodup.map_on ?_ hnd
  intro i hi j hj hij
  have hi' : i < l.length :=
    List.mem_range.mp (hidx.mem_iff.mp (List.mem_of_mem_take hi))
  have hj' : j < l.length :=
    List.mem_range.mp (hidx.mem_iff.mp (List.mem_of_mem_take hj))
  rw [List.getD_eq_getElem l "" hi', List.getD_eq_getElem l "" hj'] at hij
  exact (List.Nodup.getElem_inj_iff hl).mp hij

/-- Length of a sample: `min count poolsize`. -/
theorem sample_length {l : List String} {idx : List ℕ} (c : ℕ)
    (hidx : idx.Perm (List.range l.length)) :
    ((idx.take c).map (fun i => l.getD i "")).length = min c l.length := by
  simp [List.length_map, List.length_take, hidx.length_eq]

/-- When the whole pool is requested, the sample is a permutation of it. -/
theorem sample_perm_of_le {l : List String} {idx : List ℕ} {c : ℕ}
    (hidx : idx.Perm (List.range l.length)) (hc : l.length ≤ c) :
    ((idx.take c).map (fun i => l.getD i "")).Perm l := by
  have hlen : idx.length = l.length := hidx.length_eq.trans (List.length_range _)
  rw [List.take_of_length_le (by omega)]
  have h1 : (idx.map (fun i => l.getD i "")).Perm
      ((List.range l.length).map (fun i => l.getD i "")) := hidx.map _
  rwa [map_getD_range] at h1

/-- Inserting the sampled URLs one by one equals a set union. -/
theorem foldl_insert_eq_union (out : List String) (s : Finset String) :
    out.foldl (fun t u => insert u t) s = s ∪ out.toFinset := by
  induction out generalizing s with
  | nil => simp
  | cons a t ih =>
    simp only [List.foldl_cons, ih, List.toFinset_cons]
    ext u
    simp only [Finset.mem_union, Finset.mem_insert, List.mem_toFinset]
    tauto

/-! ### Helper lemmas about `availAfterReset` and `feedCore` -/

theorem availAfterReset_of_ne_empty {all : List String} {s : Finset String}
    (h : (all.filter (fun u => u ∉ s)).isEmpty = false) :
    availAfterReset all s = all.filter (fun u => u ∉ s) := by
  simp only [availAfterReset, h, Bool.false_eq_true, if_false]

theorem availAfterReset_of_empty {all : List String} {s : Finset String}
    (h : (all.filter (fun u => u ∉ s)).isEmpty = true) :
    availAfterReset all s = all := by
  simp only [availAfterReset, h, if_true]

theorem availAfterReset_nodup {all : List String} {s : Finset String}
    (hnd : all.Nodup) : (availAfterReset all s).Nodup := by
  cases h : (all.filter (fun u => u ∉ s)).isEmpty with
  | true => rw [availAfterReset_of_empty h]; exact hnd
  | false => rw [availAfterReset_of_ne_empty h]; exact hnd.filter _

/-- Unfolding of `feedCore` in terms of `availAfterReset`. -/
theorem feedCore_urls_eq (all : List String) (limit : ℕ) (s : Finset String)
    (idx : List ℕ) :
    (feedCore all limit s idx).urls =
      (idx.take (min limit (availAfterReset all s).length)).map
        (fun i => (availAfterReset all s).getD i "") := rfl

theorem feedCore_seen_eq (all : List String) (limit : ℕ) (s : Finset String)
    (idx : List ℕ) :
    (feedCore all limit s idx).seen =
      (if (all.filter (fun u => u ∉ s)).isEmpty then (∅ : Finset String) else s)
        ∪ (feedCore all limit s idx).urls.toFinset := by
  rw [show (feedCore all limit s idx).seen =
      (feedCore all limit s idx).urls.foldl (fun t u => insert u t)
        (if (all.filter (fun u => u ∉ s)).isEmpty then (∅ : Finset String) else s)
      from rfl]
  exact foldl_insert_eq_union _ _

/-- A `/feed` call that does not hit the reset: every returned URL is a
cached URL the client had not seen, the response has no duplicates, and
the seen set grows by exactly the returned URLs. -/
theorem feedCore_spec_noReset {all : List String} (limit : ℕ)
    {s : Finset String} {idx : List ℕ} (hnd : all.Nodup)
    (h : (all.filter (fun u => u ∉ s)).isEmpty = false)
    (hidx : idx.Perm (List.range (availAfterReset all s).length)) :
    (∀ u ∈ (feedCore all limit s idx).urls, u ∈ all ∧ u ∉ s) ∧
    (feedCore all limit s idx).urls.Nodup ∧
    (feedCore all limit s idx).seen = s ∪ (feedCore all limit s idx).urls.toFinset := by
  refine ⟨?_, ?_, ?_⟩
  · intro u hu
    rw [feedCore_urls_eq] at hu
    have := sample_subset hidx u hu
    rw [availAfterReset_of_ne_empty h] at this
    have := List.mem_filter.mp this
    exact ⟨this.1, by simpa using this.2⟩
  · rw [feedCore_urls_eq]
    exact sample_nodup (availAfterReset_nodup hnd) hidx
  · rw [feedCore_seen_eq, h]
    simp

/-- Invariant of a reset-free run of `/feed` calls: every delivered URL is
cached and was unseen when the run started, no URL is delivered twice
across the whole run, and the final seen set is the initial one plus
everything delivered. -/
theorem runFeed_inv {all : List String} (hnd : all.Nodup)
    (calls : List (ℕ × List ℕ)) (s : Finset String)
    (hv : validRun all s calls = true) (hnr : noResetRun all s calls = true) :
    (∀ u ∈ (runFeed all s calls).1.flatten, u ∈ all ∧ u ∉ s) ∧
    (runFeed all s calls).1.flatten.Nodup ∧
    (runFeed all s calls).2 = s ∪ (runFeed all s calls).1.flatten.toFinset := by
  induction calls generalizing s with
  | nil => simp [runFeed]
  | cons call rest ih =>
    obtain ⟨limit, idx⟩ := call
    rw [validRun, Bool.and_eq_true] at hv
    rw [noResetRun, Bool.and_eq_true] at hnr
    have hv1 : idx.Perm (List.range (availAfterReset all s).length) :=
      of_decide_eq_true hv.1
    have hnr1 : (all.filter (fun u => u ∉ s)).isEmpty = false := by
      cases hE : (all.filter (fun u => u ∉ s)).isEmpty with
      | false => rfl
      | true => rw [hE] at hnr; exact absurd hnr.1 (by simp)
    obtain ⟨hmem, hout, hseen⟩ := feedCore_spec_noReset limit hnd hnr1 hv1
    obtain ⟨ih1, ih2, ih3⟩ := ih (feedCore all limit s idx).seen hv.2 hnr.2
    simp only [runFeed, List.flatten_cons]
    refine ⟨?_, ?_, ?_⟩
    · intro u hu
      rcases List.mem_append.mp hu with h | h
      · exact hmem u h
      · obtain ⟨h1, h2⟩ := ih1 u h
        refine ⟨h1, fun hs => h2 ?_⟩
        rw [hseen]
        exact Finset.mem_union_left _ hs
    · refine List.Nodup.append hout ih2 ?_
      intro u hu hu'
      have h2 := (ih1 u hu').2
      exact h2 (by rw [hseen]; exact Finset.mem_union_right _ (List.mem_toFinset.mpr hu))
    · rw [ih3, hseen, List.toFinset_append, Finset.union_assoc]

/-- **C1** (cycle property).  For a fixed cache with distinct URLs and any
reset-free sequence of `/feed` calls by one client (each call sampling
along a genuine random permutation), no URL is delivered twice across the
whole sequence, the seen set records exactly the delivered URLs, and if
the run ends with the client having seen everything (the next call would
reset), the delivered URLs are a permutation of the full cache: the union
of deliveries equals the cache, each URL exactly once, before any repeat. -/
theorem feed_cycle_property (all : List String) (calls : List (ℕ × List ℕ))
    (hnd : all.Nodup) (hv : validRun all ∅ calls = true)
    (hnr : noResetRun all ∅ calls = true) :
    (runFeed all ∅ calls).1.flatten.Nodup ∧
    (runFeed all ∅ calls).2 = (runFeed all ∅ calls).1.flatten.toFinset ∧
    ((all.filter (fun u => u ∉ (runFeed all ∅ calls).2)).isEmpty = true →
      (runFeed all ∅ calls).1.flatten.Perm all) := by
  obtain ⟨h1, h2, h3⟩ := runFeed_inv hnd calls ∅ hv hnr
  rw [Finset.empty_union] at h3
  refine ⟨h2, h3, fun hE => ?_⟩
  have hnil : all.filter (fun u => u ∉ (runFeed all ∅ calls).2) = [] :=
    List.isEmpty_iff.mp hE
  refine (List.perm_ext_iff_of_nodup h2 hnd).mpr fun a => ⟨fun ha => (h1 a ha).1, fun ha => ?_⟩
  have := List.filter_eq_nil_iff.mp hnil a ha
  have ha2 : a ∈ (runFeed all ∅ calls).2 := by
    by_contra hcon
    exact this (by simpa using hcon)
  rw [h3] at ha2
  exact List.mem_toFinset.mp ha2

/-- Concrete instance of the cycle property: cache of 3 URLs, one call with
limit 2 then one with limit 1 deliver the whole cache exactly once. -/
theorem feed_cycle_property_witness :
    (["a", "b", "c"] : List String).Nodup ∧
    validRun ["a", "b", "c"] ∅ [(2, [0, 1, 2]), (1, [0])] = true ∧
    noResetRun ["a", "b", "c"] ∅ [(2, [0, 1, 2]), (1, [0])] = true ∧
    ((runFeed ["a", "b", "c"] ∅ [(2, [0, 1, 2]), (1, [0])]).1.flatten.Nodup ∧
      (runFeed ["a", "b", "c"] ∅ [(2, [0, 1, 2]), (1, [0])]).2 =
        (runFeed ["a", "b", "c"] ∅ [(2, [0, 1, 2]), (1, [0])]).1.flatten.toFinset ∧
      ((["a", "b", "c"].filter
          (fun u => u ∉ (runFeed ["a", "b", "c"] ∅ [(2, [0, 1, 2]), (1, [0])]).2)).isEmpty = true →
        (runFeed ["a", "b", "c"] ∅ [(2, [0, 1, 2]), (1, [0])]).1.flatten.Perm ["a", "b", "c"])) :=
  ⟨by decide, by decide, by decide,
    feed_cycle_property ["a", "b", "c"] [(2, [0, 1, 2]), (1, [0])]
      (by decide) (by decide) (by decide)⟩

/-- **C2** (exhaustion policy).  When a `/feed` call finds the client's
available set empty, the sampling pool becomes the whole cache and the
call behaves exactly as if the client's seen set had been cleared
entirely — so the call may re-deliver previously seen URLs. -/
theorem feed_exhaustion_reset (all : List String) (limit : ℕ)
    (s : Finset String) (idx : List ℕ)
    (h : (all.filter (fun u => u ∉ s)).isEmpty = true) :
    availAfterReset all s = all ∧
    feedCore all limit s idx = feedCore all limit (∅ : Finset String) idx := by
  refine ⟨availAfterReset_of_empty h, ?_⟩
  have hall : all.filter (fun u => u ∉ (∅ : Finset String)) = all :=
    List.filter_eq_self.mpr fun a _ => by simp
  simp only [feedCore, h, hall, if_true, ite_self]

/-- Concrete instance of the exhaustion reset: a client who has seen the
whole one-element cache triggers the reset on the next call. -/
theorem feed_exhaustion_reset_witness :
    ((["a"] : List String).filter (fun u => u ∉ ({"a"} : Finset String))).isEmpty = true ∧
    (availAfterReset ["a"] ({"a"} : Finset String) = ["a"] ∧
      feedCore ["a"] 1 ({"a"} : Finset String) [0] =
        feedCore ["a"] 1 (∅ : Finset String) [0]) :=
  ⟨by decide, feed_exhaustion_reset ["a"] 1 {"a"} [0] (by decide)⟩

/-- **C4**.  A single `/feed` response never contains the same URL twice:
neither in the per-client variant (any limit, any seen set, any random
permutation) nor in the stateless random variant. -/
theorem feed_response_nodup (all : List String) (limit : ℕ) (s : Finset String)
    (idx : List ℕ) (urls2 : List String) (lr : Option Int) (idx2 : List ℕ)
    (hnd : all.Nodup) (hidx : idx.Perm (List.range (availAfterReset all s).length))
    (hnd2 : urls2.Nodup) (hidx2 : idx2.Perm (List.range urls2.length)) :
    (feedCore all limit s idx).urls.Nodup ∧ (statelessFeed urls2 lr idx2).Nodup := by
  constructor
  · rw [feedCore_urls_eq]
    exact sample_nodup (availAfterReset_nodup hnd) hidx
  · exact sample_nodup hnd2 hidx2

/-- Concrete instance of the duplicate-freeness of one response. -/
theorem feed_response_nodup_witness :
    (["a", "b", "c"] : List String).Nodup ∧
    ([2, 0, 1] : List ℕ).Perm (List.range (availAfterReset ["a", "b", "c"] ∅).length) ∧
    ([1, 0] : List ℕ).Perm (List.range (["x", "y"] : List String).length) ∧
    ((feedCore ["a", "b", "c"] 2 ∅ [2, 0, 1]).urls.Nodup ∧
      (statelessFeed ["x", "y"] none [1, 0]).Nodup) :=
  ⟨by decide, by decide, by decide,
    feed_response_nodup ["a", "b", "c"] 2 ∅ [2, 0, 1] ["x", "y"] none [1, 0]
      (by decide) (by decide) (by decide) (by decide)⟩

/-- **C6**.  A per-client `/feed` request with an empty `key` parameter is
answered with HTTP 400, and neither the seen-sets map nor the cache
changes. -/
theorem feed_missing_key (cache : List String) (m : String → Finset String)
    (lr : Option Int) (idx : List ℕ) :
    feedHandlerFull cache m "" lr idx = (.badRequest, m, cache) := by
  simp [feedHandlerFull]

/-- **C7**.  With an empty cache snapshot, a per-client `/feed` request with
a non-empty key succeeds with an empty url list and leaves the seen-sets
map unchanged. -/
theorem feed_empty_cache (m : String → Finset String) (k : String)
    (lr : Option Int) (idx : List ℕ) (hk : k ≠ "") :
    feedHandlerFull [] m k lr idx = (.ok [], m, []) := by
  simp [feedHandlerFull, hk]

/-- Concrete instance of the empty-cache behaviour. -/
theorem feed_empty_cache_witness :
    ("x" : String) ≠ "" ∧
    feedHandlerFull [] (fun _ => (∅ : Finset String)) "x" none [] =
      (.ok [], fun _ => (∅ : Finset String), []) :=
  ⟨by decide, feed_empty_cache (fun _ => (∅ : Finset String)) "x" none [] (by decide)⟩

/-- **C10**.  When the client's available set is non-empty but smaller than
the limit, the call returns exactly the available URLs (in some order),
the response length is `min limit |available|`, and the seen set is not
reset: it only grows by the returned URLs. -/
theorem feed_partial_pool (all : List String) (limit : ℕ) (s : Finset String)
    (idx : List ℕ) (hnd : all.Nodup)
    (hne : (all.filter (fun u => u ∉ s)).isEmpty = false)
    (hidx : idx.Perm (List.range (availAfterReset all s).length))
    (hlt : (all.filter (fun u => u ∉ s)).length < limit) :
    (feedCore all limit s idx).urls.Perm (all.filter (fun u => u ∉ s)) ∧
    (feedCore all limit s idx).urls.length =
      min limit (all.filter (fun u => u ∉ s)).length ∧
    (feedCore all limit s idx).seen = s ∪ (feedCore all limit s idx).urls.toFinset := by
  have hav := availAfterReset_of_ne_empty hne
  refine ⟨?_, ?_, (feedCore_spec_noReset limit hnd hne hidx).2.2⟩
  · rw [feedCore_urls_eq]
    have hidx2 : idx.Perm (List.range (all.filter (fun u => u ∉ s)).length) := hav ▸ hidx
    rw [hav]
    exact sample_perm_of_le hidx2 (by omega)
  · rw [feedCore_urls_eq, sample_length _ hidx, hav]
    omega

/-- Concrete instance of the partial-pool behaviour: cache of 3, client has
seen 2, limit 2 — the call returns the single remaining URL. -/
theorem feed_partial_pool_witness :
    (["a", "b", "c"] : List String).Nodup ∧
    ((["a", "b", "c"] : List String).filter
      (fun u => u ∉ ({"a", "b"} : Finset String))).isEmpty = false ∧
    ([0] : List ℕ).Perm
      (List.range (availAfterReset ["a", "b", "c"] ({"a", "b"} : Finset String)).length) ∧
    (["a", "b", "c"].filter (fun u => u ∉ ({"a", "b"} : Finset String))).length < 2 ∧
    ((feedCore ["a", "b", "c"] 2 ({"a", "b"} : Finset String) [0]).urls.Perm
        (["a", "b", "c"].filter (fun u => u ∉ ({"a", "b"} : Finset String))) ∧
      (feedCore ["a", "b", "c"] 2 ({"a", "b"} : Finset String) [0]).urls.length =
        min 2 (["a", "b", "c"].filter (fun u => u ∉ ({"a", "b"} : Finset String))).length ∧
      (feedCore ["a", "b", "c"] 2 ({"a", "b"} : Finset String) [0]).seen =
        ({"a", "b"} : Finset String) ∪
          (feedCore ["a", "b", "c"] 2 ({"a", "b"} : Finset String) [0]).urls.toFinset) :=
  ⟨by decide, by decide, by decide, by decide,
    feed_partial_pool ["a", "b", "c"] 2 {"a", "b"} [0]
      (by decide) (by decide) (by decide) (by decide)⟩

/-- **C3 refuted**.  With cache `{a,b,c}` and limit 2, after a first call
delivering two URLs the second call returns only the single remaining
unseen URL — one URL, not "the remaining URL plus one repeat" — and no
reset happens during that call: the reset triggers only when zero URLs
are unseen, not when fewer than `limit` are. -/
theorem feed_worked_example_counterexample :
    ([0, 1, 2] : List ℕ).Perm
      (List.range (availAfterReset ["a", "b", "c"] ∅).length) ∧
    (feedCore ["a", "b", "c"] 2 ∅ [0, 1, 2]).urls = ["a", "b"] ∧
    ([0] : List ℕ).Perm (List.range (availAfterReset ["a", "b", "c"]
      (feedCore ["a", "b", "c"] 2 ∅ [0, 1, 2]).seen).length) ∧
    (feedCore ["a", "b", "c"] 2
      (feedCore ["a", "b", "c"] 2 ∅ [0, 1, 2]).seen [0]).urls = ["c"] ∧
    (feedCore ["a", "b", "c"] 2
      (feedCore ["a", "b", "c"] 2 ∅ [0, 1, 2]).seen [0]).urls.length ≠ 2 ∧
    (["a", "b", "c"].filter
      (fun u => u ∉ (feedCore ["a", "b", "c"] 2 ∅ [0, 1, 2]).seen)).isEmpty = false := by
  decide

/-- **C3 amended**.  Cache of 3 distinct URLs, client requesting limit 2
repeatedly: call 1 returns 2 distinct URLs; call 2 returns exactly the one
remaining unseen URL (a one-element response — no repeat, no reset:
having fewer unseen URLs than the limit does *not* trigger the reset);
after call 2 the client has seen everything, so call 3 starts with an
empty available set and only then does the reset make the whole cache the
sampling pool again. -/
theorem feed_worked_example_amended (all : List String) (idx1 idx2 : List ℕ)
    (h3 : all.length = 3) (hnd : all.Nodup)
    (h1 : idx1.Perm (List.range (availAfterReset all ∅).length))
    (h2 : idx2.Perm (List.range (availAfterReset all
      (feedCore all 2 ∅ idx1).seen).length)) :
    (feedCore all 2 ∅ idx1).urls.Nodup ∧
    (feedCore all 2 ∅ idx1).urls.length = 2 ∧
    (all.filter (fun u => u ∉ (feedCore all 2 ∅ idx1).seen)).length = 1 ∧
    (feedCore all 2 (feedCore all 2 ∅ idx1).seen idx2).urls =
      all.filter (fun u => u ∉ (feedCore all 2 ∅ idx1).seen) ∧
    (all.filter (fun u => u ∉ (feedCore all 2
      (feedCore all 2 ∅ idx1).seen idx2).seen)).isEmpty = true ∧
    availAfterReset all
      (feedCore all 2 (feedCore all 2 ∅ idx1).seen idx2).seen = all := by
  have hfil0 : all.filter (fun u => u ∉ (∅ : Finset String)) = all :=
    List.filter_eq_self.mpr fun a _ => by simp
  have hne0 : (all.filter (fun u => u ∉ (∅ : Finset String))).isEmpty = false := by
    rw [hfil0]
    cases hE : all.isEmpty with
    | false => rfl
    | true => rw [List.isEmpty_iff.mp hE] at h3; simp at h3
  have hav0 : availAfterReset all (∅ : Finset String) = all :=
    (availAfterReset_of_ne_empty hne0).trans hfil0
  obtain ⟨hmem1, hnd1, hseen1⟩ := feedCore_spec_noReset 2 hnd hne0 h1
  have hseen1' : (feedCore all 2 ∅ idx1).seen = (feedCore all 2 ∅ idx1).urls.toFinset := by
    rw [hseen1, Finset.empty_union]
  have len1 : (feedCore all 2 ∅ idx1).urls.length = 2 := by
    rw [feedCore_urls_eq, sample_length _ h1, hav0, h3]
    decide
  -- the remaining pool after call 1
  have hrem_nodup : (all.filter (fun u => u ∉ (feedCore all 2 ∅ idx1).seen)).Nodup :=
    hnd.filter _
  have hsubset : (feedCore all 2 ∅ idx1).urls.toFinset ⊆ all.toFinset := by
    intro u hu
    exact List.mem_toFinset.mpr (hmem1 u (List.mem_toFinset.mp hu)).1
  have hset : (all.filter (fun u => u ∉ (feedCore all 2 ∅ idx1).seen)).toFinset =
      all.toFinset \ (feedCore all 2 ∅ idx1).urls.toFinset := by
    ext u
    simp [List.mem_toFinset, List.mem_filter, hseen1', Finset.mem_sdiff]
  have hlenrem : (all.filter (fun u => u ∉ (feedCore all 2 ∅ idx1).seen)).length = 1 := by
    rw [← List.toFinset_card_of_nodup hrem_nodup, hset, Finset.card_sdiff hsubset,
      List.toFinset_card_of_nodup hnd, List.toFinset_card_of_nodup hnd1, h3, len1]
  have hne1 : (all.filter (fun u => u ∉ (feedCore all 2 ∅ idx1).seen)).isEmpty = false := by
    cases hE : (all.filter (fun u => u ∉ (feedCore all 2 ∅ idx1).seen)).isEmpty with
    | false => rfl
    | true => rw [List.isEmpty_iff.mp hE] at hlenrem; simp at hlenrem
  have hav1 : availAfterReset all (feedCore all 2 ∅ idx1).seen =
      all.filter (fun u => u ∉ (feedCore all 2 ∅ idx1).seen) :=
    availAfterReset_of_ne_empty hne1
  obtain ⟨x, hx⟩ := List.length_eq_one.mp hlenrem
  have hidx2 : idx2 = [0] := by
    have h2' := h2
    rw [hav1, hx] at h2'
    rw [show List.range ([x].length) = [0] from rfl] at h2'
    exact List.perm_singleton.mp h2'
  have hurls2 : (feedCore all 2 (feedCore all 2 ∅ idx1).seen idx2).urls =
      all.filter (fun u => u ∉ (feedCore all 2 ∅ idx1).seen) := by
    rw [feedCore_urls_eq, hav1, hx, hidx2]
    rfl
  obtain ⟨hmem2, hnd2, hseen2⟩ := feedCore_spec_noReset 2 hnd hne1 h2
  have hcover : ∀ u ∈ all,
      u ∈ (feedCore all 2 (feedCore all 2 ∅ idx1).seen idx2).seen := by
    intro u hu
    rw [hseen2]
    by_cases hs : u ∈ (feedCore all 2 ∅ idx1).seen
    · exact Finset.mem_union_left _ hs
    · refine Finset.mem_union_right _ (List.mem_toFinset.mpr ?_)
      rw [hurls2]
      exact List.mem_filter.mpr ⟨hu, by simpa using hs⟩
  have hexh : (all.filter (fun u => u ∉ (feedCore all 2
      (feedCore all 2 ∅ idx1).seen idx2).seen)).isEmpty = true := by
    rw [List.isEmpty_iff]
    rw [List.filter_eq_nil_iff]
    intro a ha
    simpa using hcover a ha
  exact ⟨hnd1, len1, hlenrem, hurls2, hexh, availAfterReset_of_empty hexh⟩

/-- Concrete instance of the amended worked example. -/
theorem feed_worked_example_amended_witness :
    (["a", "b", "c"] : List String).length = 3 ∧
    (["a", "b", "c"] : List String).Nodup ∧
    ([1, 2, 0] : List ℕ).Perm (List.range (availAfterReset ["a", "b", "c"] ∅).length) ∧
    ([0] : List ℕ).Perm (List.range (availAfterReset ["a", "b", "c"]
      (feedCore ["a", "b", "c"] 2 ∅ [1, 2, 0]).seen).length) ∧
    ((feedCore ["a", "b", "c"] 2 ∅ [1, 2, 0]).urls.Nodup ∧
      (feedCore ["a", "b", "c"] 2 ∅ [1, 2, 0]).urls.length = 2 ∧
      (["a", "b", "c"].filter
        (fun u => u ∉ (feedCore ["a", "b", "c"] 2 ∅ [1, 2, 0]).seen)).length = 1 ∧
      (feedCore ["a", "b", "c"] 2 (feedCore ["a", "b", "c"] 2 ∅ [1, 2, 0]).seen [0]).urls =
        ["a", "b", "c"].filter
          (fun u => u ∉ (feedCore ["a", "b", "c"] 2 ∅ [1, 2, 0]).seen) ∧
      (["a", "b", "c"].filter (fun u => u ∉ (feedCore ["a", "b", "c"] 2
        (feedCore ["a", "b", "c"] 2 ∅ [1, 2, 0]).seen [0]).seen)).isEmpty = true ∧
      availAfterReset ["a", "b", "c"]
        (feedCore ["a", "b", "c"] 2
          (feedCore ["a", "b", "c"] 2 ∅ [1, 2, 0]).seen [0]).seen = ["a", "b", "c"]) :=
  ⟨by decide, by decide, by decide, by decide,
    feed_worked_example_amended ["a", "b", "c"] [1, 2, 0] [0]
      (by decide) (by decide) (by decide) (by decide)⟩

/-- **C5 refuted**.  In the per-client variant a request whose limit (10)
exceeds the cache size (3) does not always return cache-size many URLs: a
client who has already seen 2 of the 3 cached URLs receives 1 URL. -/
theorem feed_limit_clamp_counterexample :
    parseLimit (some 10) = 10 ∧
    (["a", "b", "c"] : List String).length = 3 ∧
    ([0] : List ℕ).Perm (List.range (availAfterReset ["a", "b", "c"]
      ((fun _ => ({"a", "b"} : Finset String)) "x")).length) ∧
    respUrls (feedHandlerFull ["a", "b", "c"] (fun _ => ({"a", "b"} : Finset String))
      "x" (some 10) [0]).1 = ["c"] ∧
    (respUrls (feedHandlerFull ["a", "b", "c"] (fun _ => ({"a", "b"} : Finset String))
      "x" (some 10) [0]).1).length ≠ 3 := by
  decide

/-- **C5 amended**.  The limit is always clamped: an absent or non-positive
limit parameter falls back to the default 5; the stateless variant
returns exactly `min limit cachesize` URLs (so exactly the cache size
whenever the limit exceeds it); the per-client variant returns
`min (min limit cachesize) |pool|` URLs, where the pool is the client's
unseen set (the full cache only after a reset or for a fresh client). -/
theorem feed_limit_clamp_amended :
    parseLimit none = 5 ∧
    (∀ z : Int, z ≤ 0 → parseLimit (some z) = 5) ∧
    (∀ (urls : List String) (lr : Option Int) (idx : List ℕ),
      idx.Perm (List.range urls.length) →
      (statelessFeed urls lr idx).length = min (parseLimit lr) urls.length) ∧
    (∀ (cache : List String) (m : String → Finset String) (k : String)
      (lr : Option Int) (idx : List ℕ), k ≠ "" →
      idx.Perm (List.range (availAfterReset cache (m k)).length) →
      (respUrls (feedHandlerFull cache m k lr idx).1).length =
        min (min (parseLimit lr) cache.length)
          (availAfterReset cache (m k)).length) := by
  refine ⟨rfl, ?_, ?_, ?_⟩
  · intro z hz
    rw [parseLimit, if_neg (by omega)]
  · intro urls lr idx hidx
    have hlen : idx.length = urls.length := hidx.length_eq.trans (List.length_range _)
    simp only [statelessFeed, List.length_map, List.length_take, hlen]
    split <;> omega
  · intro cache m k lr idx hk hidx
    cases cache with
    | nil =>
      rw [show availAfterReset [] (m k) = [] from rfl]
      simp [feedHandlerFull, hk, respUrls]
    | cons a t =>
      have hne : ¬((a :: t).length = 0) := by simp
      rw [feedHandlerFull, if_neg hk, if_neg hne]
      rw [show respUrls (FeedResponse.ok (feedCore (a :: t)
        (if parseLimit lr > (a :: t).length then (a :: t).length else parseLimit lr)
        (m k) idx).urls) = (feedCore (a :: t)
        (if parseLimit lr > (a :: t).length then (a :: t).length else parseLimit lr)
        (m k) idx).urls from rfl]
      rw [feedCore_urls_eq, sample_length _ hidx]
      split <;> omega

/-- Concrete instance of the amended clamping facts. -/
theorem feed_limit_clamp_amended_witness :
    (statelessFeed ["a", "b"] (some 5) [1, 0]).length =
      min (parseLimit (some 5)) (["a", "b"] : List String).length ∧
    (respUrls (feedHandlerFull ["a", "b", "c"] (fun _ => (∅ : Finset String))
        "x" (some 10) [0, 1, 2]).1).length =
      min (min (parseLimit (some 10)) (["a", "b", "c"] : List String).length)
        (availAfterReset ["a", "b", "c"]
          ((fun _ => (∅ : Finset String)) "x")).length :=
  ⟨feed_limit_clamp_amended.2.2.1 ["a", "b"] (some 5) [1, 0] (by decide),
    feed_limit_clamp_amended.2.2.2 ["a", "b", "c"] (fun _ => (∅ : Finset String))
      "x" (some 10) [0, 1, 2] (by decide) (by decide)⟩

/-! ### Helper lemmas for `/refresh` and `/vote` -/

theorem lookup_append_of_some {l : List (String × String)} {k v : String}
    (h : l.lookup k = some v) (l2 : List (String × String)) :
    (l ++ l2).lookup k = some v := by
  induction l with
  | nil => simp [List.lookup] at h
  | cons a t ih =>
    obtain ⟨a1, a2⟩ := a
    rw [List.lookup_cons] at h
    rw [List.cons_append, List.lookup_cons]
    cases hak : k == a1 with
    | true => rw [hak] at h; exact h
    | false => rw [hak] at h; exact ih h

theorem cacheInsert_preserves {c : List (String × String)} {k v : String}
    (k2 v2 : String) (h : c.lookup k = some v) :
    (cacheInsert c k2 v2).lookup k = some v := by
  unfold cacheInsert
  split
  · exact h
  · exact lookup_append_of_some h _

theorem refreshMerge_preserves (base : String) (keys : List String)
    (c : List (String × String)) {k v : String} (h : c.lookup k = some v) :
    (refreshMerge base c keys).lookup k = some v := by
  induction keys generalizing c with
  | nil => exact h
  | cons k0 ks ih =>
    rw [refreshMerge]
    apply ih
    split
    · exact h
    · exact cacheInsert_preserves _ _ h

theorem voteUpsert_lookup_self (t : List (String × VoteRow)) (k : String) (b : Bool) :
    (voteUpsert t k b).lookup k = some ⟨b, voteCountOf t k + 1⟩ := by
  induction t with
  | nil => simp [voteUpsert, voteCountOf, List.lookup]
  | cons a rest ih =>
    obtain ⟨k0, r⟩ := a
    rw [voteUpsert]
    by_cases h : k0 = k
    · subst h
      simp [List.lookup_cons, voteCountOf]
    · have hbeq : (k == k0) = false := beq_eq_false_iff_ne.mpr (fun he => h he.symm)
      rw [if_neg h]
      simp only [List.lookup_cons, hbeq]
      rw [ih]
      simp only [voteCountOf, List.lookup_cons, hbeq]

theorem voteUpsert_lookup_ne (t : List (String × VoteRow)) (k : String) (b : Bool)
    (k2 : String) (h : k2 ≠ k) :
    (voteUpsert t k b).lookup k2 = t.lookup k2 := by
  induction t with
  | nil => simp [voteUpsert, List.lookup_cons, beq_eq_false_iff_ne.mpr h]
  | cons a rest ih =>
    obtain ⟨k0, r⟩ := a
    rw [voteUpsert]
    by_cases h0 : k0 = k
    · subst h0
      rw [if_pos rfl]
      simp only [List.lookup_cons, beq_eq_false_iff_ne.mpr h]
    · rw [if_neg h0]
      simp only [List.lookup_cons]
      cases hak : k2 == k0 with
      | true => rfl
      | false => exact ih

theorem runVotes_lookup_of_no_vote (calls : List (String × Bool))
    (t : List (String × VoteRow)) (k : String)
    (h : calls.filter (fun q => q.1 = k) = []) :
    (runVotes t calls).lookup k = t.lookup k := by
  induction calls generalizing t with
  | nil => rfl
  | cons q rest ih =>
    obtain ⟨k0, b0⟩ := q
    rw [List.filter_cons] at h
    by_cases hk : k0 = k
    · simp [hk] at h
    · rw [runVotes, ih _ (by simpa [hk] using h)]
      exact voteUpsert_lookup_ne t k0 b0 k (fun he => hk he.symm)

theorem runVotes_lookup_last (calls : List (String × Bool))
    (t : List (String × VoteRow)) (k : String) (c : String × Bool)
    (h : (calls.filter (fun q => q.1 = k)).getLast? = some c) :
    (runVotes t calls).lookup k =
      some ⟨c.2, voteCountOf t k + (calls.filter (fun q => q.1 = k)).length⟩ := by
  induction calls generalizing t with
  | nil => simp at h
  | cons q rest ih =>
    obtain ⟨k0, b0⟩ := q
    rw [runVotes]
    rw [List.filter_cons] at h ⊢
    by_cases hk : k0 = k
    · subst hk
      rw [if_pos (by simp)] at h ⊢
      by_cases hrest : rest.filter (fun q => q.1 = k0) = []
      · rw [hrest] at h ⊢
        have hc : c = (k0, b0) := by simpa using h.symm
        rw [runVotes_lookup_of_no_vote rest _ k0 hrest, voteUpsert_lookup_self, hc]
        rfl
      · obtain ⟨y, ys, hys⟩ := List.exists_cons_of_ne_nil hrest
        rw [hys, List.getLast?_cons_cons, ← hys] at h
        rw [ih _ h]
        rw [show voteCountOf (voteUpsert t k0 b0) k0 = voteCountOf t k0 + 1 by
          rw [voteCountOf, voteUpsert_lookup_self]]
        rw [List.length_cons]
        rw [show voteCountOf t k0 + 1 + (rest.filter (fun q => q.1 = k0)).length =
          voteCountOf t k0 + ((rest.filter (fun q => q.1 = k0)).length + 1) by omega]
    · rw [if_neg (by simpa using hk)] at h ⊢
      rw [ih _ h]
      rw [show voteCountOf (voteUpsert t k0 b0) k = voteCountOf t k by
        rw [voteCountOf, voteUpsert_lookup_ne t k0 b0 k (fun he => hk he.symm), voteCountOf]]

/-- **C8**.  `/refresh` is a pure merge: every cache entry present before
the merge is still present with the same URL afterwards (a key already
present is a no-op), and the reported count is the total cache size after
the merge. -/
theorem refresh_pure_merge (base : String) (c : List (String × String))
    (keys : List String) :
    (∀ k v, c.lookup k = some v → (refreshHandler base c keys).1.lookup k = some v) ∧
    (refreshHandler base c keys).2 = (refreshHandler base c keys).1.length ∧
    (∀ k v, (c.lookup k).isSome = true → cacheInsert c k v = c) := by
  refine ⟨fun k v h => refreshMerge_preserves base keys c h, rfl, fun k v h => ?_⟩
  rw [cacheInsert, if_pos h]

/-- Concrete instance of the refresh merge: an entry survives a refresh
that lists its key again together with a new key. -/
theorem refresh_pure_merge_witness :
    ([("a", "u/a")] : List (String × String)).lookup "a" = some "u/a" ∧
    (refreshHandler "u" [("a", "u/a")] ["a", "b"]).1.lookup "a" = some "u/a" :=
  ⟨by decide, (refresh_pure_merge "u" [("a", "u/a")] ["a", "b"]).1 "a" "u/a" (by decide)⟩

/-- **C9**.  Vote upsert: starting from an empty table, after any sequence
of successful `/vote` calls the row stored for a client holds the boolean
of that client's last vote and a `vote_count` equal to that client's
number of calls; each call increments the stored count by exactly one,
and an existing row is never deleted. -/
theorem vote_upsert_correct (calls : List (String × Bool)) (k : String)
    (c : String × Bool)
    (h : (calls.filter (fun q => q.1 = k)).getLast? = some c) :
    (runVotes [] calls).lookup k =
      some ⟨c.2, (calls.filter (fun q => q.1 = k)).length⟩ ∧
    (∀ (t : List (String × VoteRow)) (k2 : String) (b : Bool),
      voteCountOf (voteUpsert t k2 b) k2 = voteCountOf t k2 + 1) ∧
    (∀ (t : List (String × VoteRow)) (k2 k3 : String) (b : Bool),
      (t.lookup k3).isSome = true → ((voteUpsert t k2 b).lookup k3).isSome = true) := by
  refine ⟨?_, ?_, ?_⟩
  · have := runVotes_lookup_last calls [] k c h
    rwa [show voteCountOf [] k = 0 from rfl, Nat.zero_add] at this
  · intro t k2 b
    rw [voteCountOf, voteUpsert_lookup_self]
  · intro t k2 k3 b hs
    by_cases hq : k3 = k2
    · subst hq
      rw [voteUpsert_lookup_self]
      rfl
    · rw [voteUpsert_lookup_ne t k2 b k3 hq]
      exact hs

/-- Concrete instance of the vote upsert: two votes by "x" (true then
false) and one by "y" leave "x" with boolean false and count 2. -/
theorem vote_upsert_correct_witness :
    (([("x", true), ("x", false), ("y", true)] : List (String × Bool)).filter
      (fun q => q.1 = "x")).getLast? = some ("x", false) ∧
    (runVotes [] [("x", true), ("x", false), ("y", true)]).lookup "x" =
      some ⟨("x", false).2, (([("x", true), ("x", false), ("y", true)] :
        List (String × Bool)).filter (fun q => q.1 = "x")).length⟩ :=
  ⟨by decide,
    (vote_upsert_correct [("x", true), ("x", false), ("y", true)] "x" ("x", false)
      (by decide)).1⟩

end NamuRocky
